import Mathlib

/-!
Verification of the DSAL positional-IO core (Seagate cortx-dsal).

Shallow embedding of src/dstore/dstore_base.c and
src/dstore/plugins/cortx/cortx_dstore.c.

The backend object store (m0store, external to this repository) is modelled
at the contract the core consumes: block-granular storage where an aligned
multi-block read reports -ENOENT when any requested block has never been
written, and an aligned write stores whole blocks.  All byte values are
modelled as Nat, buffers as List Nat, and machine error codes as Int using
the -errno convention of the source.
-/

set_option maxRecDepth 4000

abbrev Byte := Nat

/-- Backend object content: a map from block index to the block's bytes.
A block is absent (none) when it has never been written (a hole). -/
abbrev Store := Nat → Option (List Byte)

/-- ENOENT as a negative errno, as used by the source (-ENOENT = -2). -/
def eNOENT : Int := -2

/-- EINVAL as a negative errno (-EINVAL = -22). -/
def eINVAL : Int := -22

/-- ENOMEM as a negative errno (-ENOMEM = -12). -/
def eNOMEM : Int := -12

/-- Well-formed store for block size bs: every present block holds bs bytes. -/
def wfStore (bs : Nat) (st : Store) : Prop :=
  ∀ i b, st i = some b → b.length = bs

/-- Logical byte content of the object at absolute byte address a:
the byte of the containing block, or 0 inside a hole. -/
def byteAt (bs : Nat) (st : Store) (a : Nat) : Byte :=
  match st (a / bs) with
  | some b => b.getD (a % bs) 0
  | none => 0

/-- Concatenation of f i over a list of block indices. -/
def catMap (f : Nat → List Byte) : List Nat → List Byte
  | [] => []
  | i :: is => f i ++ catMap f is

/-- Overwrite l at position pos with v, keeping everything else
(the effect of memcpy(l + pos, v, v.length) on a buffer). -/
def listStore (l : List Byte) (pos : Nat) (v : List Byte) : List Byte :=
  l.take pos ++ v ++ l.drop (pos + v.length)

/-- Abstract backend read interface: offset and size in bytes to either
an error rc or the bytes read.  Instantiated by storeBackend for the
concrete store model, or kept abstract for error-path reasoning. -/
abbrev Backend := Nat → Nat → Except Int (List Byte)

/-- Modelled from the spec: the backend multi-block aligned read contract
(m0store via the cortx plugin; the backend itself is outside this
repository).  A read of size bytes at offset (both multiples of bs at every
call site) returns -ENOENT when any requested block has never been written,
and otherwise the concatenation of the requested blocks. -/
def backendReadAligned (bs : Nat) (st : Store) (off size : Nat) :
    Except Int (List Byte) :=
  let blk0 := off / bs
  let k := size / bs
  if (List.range k).all (fun i => (st (blk0 + i)).isSome) then
    .ok (catMap (fun i => (st (blk0 + i)).getD []) (List.range k))
  else
    .error eNOENT

/-- Modelled from the spec: the backend aligned write contract.  Writing
data (a whole number of blocks) at offset (a multiple of bs) replaces
exactly the covered blocks. -/
def backendWriteAligned (bs : Nat) (st : Store) (off : Nat)
    (data : List Byte) : Store :=
  fun j =>
    if off / bs ≤ j ∧ j < off / bs + data.length / bs then
      some ((data.drop ((j - off / bs) * bs)).take bs)
    else
      st j

/-- Backend view of a concrete store. -/
def storeBackend (bs : Nat) (st : Store) : Backend :=
  fun off size => backendReadAligned bs st off size

/-- Model of pread_aligned (dstore_base.c): build a one-buffer vector,
submit a READ op and wait.  The operation lifecycle is modelled separately
(dstore_io_op_init_and_submit); the data-path effect is one backend read
of buf_size bytes at offset. -/
def pread_aligned (bk : Backend) (buf_size off : Nat) : Except Int (List Byte) :=
  bk off buf_size

/-- Model of pwrite_aligned (dstore_base.c): one backend aligned write of
write_buf at offset.  In the pure store model the write itself succeeds;
rc plumbing is kept for structural fidelity. -/
def pwrite_aligned (bs : Nat) (st : Store) (write_buf : List Byte)
    (off : Nat) : Except Int Store :=
  .ok (backendWriteAligned bs st off write_buf)

/-- Per-block retry loop of pread_aligned_handle_holes (dstore_base.c,
lines 513-536): each listed block is re-read individually; a block whose
read reports -ENOENT is zero-filled (memset 0) and iteration continues;
any other non-zero rc is returned at once. -/
def holesLoop (bk : Backend) (bs off : Nat) : List Nat → Except Int (List Byte)
  | [] => .ok []
  | i :: rest =>
    match pread_aligned bk bs (off + i * bs) with
    | .ok b => (holesLoop bk bs off rest).map (fun l => b ++ l)
    | .error rc =>
      if rc = eNOENT then
        (holesLoop bk bs off rest).map (fun l => List.replicate bs 0 ++ l)
      else
        .error rc

/-- Model of pread_aligned_handle_holes (dstore_base.c, lines 489-546):
attempt the whole aligned read; on -ENOENT re-read the count = buf_size/bs
blocks one by one through holesLoop and return 0; any other rc is returned
unchanged.  Note the source places no lower bound on count: the retry loop
also runs for a single-block request. -/
def pread_aligned_handle_holes (bk : Backend) (bs buf_size off : Nat) :
    Except Int (List Byte) :=
  match pread_aligned bk buf_size off with
  | .ok data => .ok data
  | .error rc =>
    if rc = eNOENT then
      holesLoop bk bs off (List.range (buf_size / bs))
    else
      .error rc

/-- Left-edge read of pwrite_unaligned (dstore_base.c, lines 570-584):
when offset is not block-aligned, read block left_blk_num into
tmpbuf bytes 0..bs; errors propagate. -/
def pwriteLeftEdge (bs : Nat) (st : Store) (off left_blk_num : Nat)
    (tmpbuf : List Byte) : Except Int (List Byte) :=
  if off % bs ≠ 0 then
    match pread_aligned_handle_holes (storeBackend bs st) bs bs (left_blk_num * bs) with
    | .error e => .error e
    | .ok l => .ok (listStore tmpbuf 0 l)
  else
    .ok tmpbuf

/-- Right-edge read of pwrite_unaligned (dstore_base.c, lines 586-601):
when offset+count is not block-aligned and the request spans more than one
block, read block right_blk_num into the last bs bytes of tmpbuf. -/
def pwriteRightEdge (bs : Nat) (st : Store) (off count left_blk_num right_blk_num num_of_blks : Nat)
    (tmpbuf : List Byte) : Except Int (List Byte) :=
  if (off + count) % bs ≠ 0 ∧ left_blk_num ≠ right_blk_num then
    match pread_aligned_handle_holes (storeBackend bs st) bs bs (right_blk_num * bs) with
    | .error e => .error e
    | .ok l => .ok (listStore tmpbuf ((num_of_blks - 1) * bs) l)
  else
    .ok tmpbuf

/-- Range of a C uint32_t value. -/
def U32 : Nat := 2 ^ 32

/-- Store of a 64-bit value into a uint32_t local: truncation mod 2^32.
The unaligned IO paths of dstore_base.c keep their block numbers and
buffer positions in uint32_t locals while offset (off_t) and count
(size_t) are 64-bit, so every such store can discard high bits. -/
def u32 (n : Nat) : Nat := n % U32

/-- Block index holding the first byte of the request: the 64-bit
quotient offset/bs stored into the uint32_t left_blk_num of
pwrite_unaligned (dstore_base.c, line 553) and pread_unaligned (line
656), truncating mod 2^32. -/
def left_blk_num (bs off : Nat) : Nat := u32 (off / bs)

/-- Block index holding the last byte of the request: the 64-bit quotient
(offset+count)/bs stored into the uint32_t right_blk_num (dstore_base.c,
lines 555-557), truncating mod 2^32; the decrement applied when
offset+count is block-aligned is a uint32_t decrement and wraps at 0. -/
def right_blk_num (bs off count : Nat) : Nat :=
  let r := u32 ((off + count) / bs)
  if (off + count) % bs = 0 then (r + U32 - 1) % U32 else r

/-- Number of blocks touched by the request (dstore_base.c, line 559):
right_blk_num - left_blk_num + 1 evaluated in uint32_t arithmetic, so the
subtraction wraps mod 2^32 and the increment is truncated again. -/
def num_of_blks (bs off count : Nat) : Nat :=
  u32 ((right_blk_num bs off count + U32 - left_blk_num bs off) % U32 + 1)

/-- Model of pwrite_unaligned (dstore_base.c, lines 548-628): compute the
touched block range (in uint32_t locals), allocate a zeroed scratch of
num_of_blks blocks, read-modify the partial edge blocks, copy the payload
at buf_pos = offset - left_blk_num*bs (a uint32_t, truncating), and
commit with one aligned write at left_blk_num*bs. -/
def pwrite_unaligned (bs : Nat) (st : Store) (off count : Nat)
    (buf : List Byte) : Except Int Store :=
  let tmpbuf : List Byte := List.replicate (num_of_blks bs off count * bs) 0
  match pwriteLeftEdge bs st off (left_blk_num bs off) tmpbuf with
  | .error e => .error e
  | .ok tmpbuf1 =>
    match pwriteRightEdge bs st off count (left_blk_num bs off)
        (right_blk_num bs off count) (num_of_blks bs off count) tmpbuf1 with
    | .error e => .error e
    | .ok tmpbuf2 =>
      let buf_pos := u32 (off - left_blk_num bs off * bs)
      pwrite_aligned bs st (listStore tmpbuf2 buf_pos buf) (left_blk_num bs off * bs)

/-- Tail segment of pread_unaligned (dstore_base.c, lines 711-727): when a
non-aligned tail remains, read one block at the current (64-bit) offset
and copy the first count bytes into the caller's buffer at the uint32_t
position buf_pos. -/
def preadTail (bs : Nat) (st : Store) (off count buf_pos : Nat)
    (buf : List Byte) : Except Int (List Byte) :=
  if count = 0 then
    .ok buf
  else
    match pread_aligned_handle_holes (storeBackend bs st) bs bs off with
    | .error e => .error e
    | .ok tmp => .ok (listStore buf buf_pos (tmp.take count))

/-- Interior aligned run of pread_unaligned (dstore_base.c, lines
689-709, label continous_aligned_read): read cont_blk_count (a uint32_t
holding the truncated 64-bit quotient count/bs) whole blocks into the
caller's buffer at buf_pos, then advance the 64-bit offset/count and the
uint32_t buf_pos (truncating) and handle the tail. -/
def preadCont (bs : Nat) (st : Store) (off count buf_pos : Nat)
    (buf : List Byte) : Except Int (List Byte) :=
  let cont_blk_count := u32 (count / bs)
  if 0 < cont_blk_count then
    match pread_aligned_handle_holes (storeBackend bs st) bs (cont_blk_count * bs) off with
    | .error e => .error e
    | .ok mid =>
      preadTail bs st (off + cont_blk_count * bs) (count - cont_blk_count * bs)
        (u32 (buf_pos + cont_blk_count * bs)) (listStore buf buf_pos mid)
  else
    preadTail bs st off count buf_pos buf

/-- Model of pread_unaligned (dstore_base.c, lines 631-737): the caller's
count-byte buffer is modelled as a zero-filled list that the routine
overwrites in place (the theorems below only evaluate it at inputs where
the source writes every returned byte).  left_blk_num, left_bytes,
right_bytes, read_count and buf_pos are uint32_t locals (lines 635-640)
and every store into them truncates mod 2^32, while offset and count are
advanced in full 64-bit width.  If the start is left-aligned and at least
one whole block is requested, jump to the interior run; otherwise read
the block at left_blk_num*bs, copy the covered suffix, stop if the
request ends inside that block, and continue with the interior run. -/
def pread_unaligned (bs : Nat) (st : Store) (off count : Nat) :
    Except Int (List Byte) :=
  let buf : List Byte := List.replicate count 0
  if off % bs = 0 ∧ bs ≤ count then
    preadCont bs st off count 0 buf
  else
    let left_bytes := u32 (off - left_blk_num bs off * bs)
    let right_bytes := u32 (bs - left_bytes)
    let read_count := u32 (if count < right_bytes then count else right_bytes)
    match pread_aligned_handle_holes (storeBackend bs st) bs bs (left_blk_num bs off * bs) with
    | .error e => .error e
    | .ok tmp =>
      let buf1 := listStore buf 0 ((tmp.drop left_bytes).take read_count)
      if count ≤ right_bytes then
        .ok buf1
      else
        preadCont bs st (off + read_count) (count - read_count) read_count buf1

/-- Model of __dstore_pwrite (dstore_base.c, lines 739-760): aligned
dispatch when both count and offset are multiples of bs, otherwise
pwrite_unaligned. -/
def dstore_pwrite (bs : Nat) (st : Store) (off count : Nat)
    (buf : List Byte) : Except Int Store :=
  if count % bs = 0 ∧ off % bs = 0 then
    pwrite_aligned bs st buf off
  else
    pwrite_unaligned bs st off count buf

/-- Model of __dstore_pread (dstore_base.c, lines 780-801): aligned
dispatch goes through the hole-tolerant aligned reader, otherwise
pread_unaligned.  dstore_pread / dstore_pwrite only add perf-trace
wrappers around these bodies. -/
def dstore_pread (bs : Nat) (st : Store) (off count : Nat) :
    Except Int (List Byte) :=
  if count % bs = 0 ∧ off % bs = 0 then
    pread_aligned_handle_holes (storeBackend bs st) bs count off
  else
    pread_unaligned bs st off count

/-- DSAL_MAX_IO_SIZE from dstore_base.c (1024*1024). -/
def DSAL_MAX_IO_SIZE : Nat := 1024 * 1024

/-- Outcome rc of a dstore_pwrite call as seen by dstore_obj_shrink:
offset and count determine the call; the buffer is always tmp_buf, a
calloc'd zero buffer, and the block size is the backend bsize. -/
abbrev PwriteRc := Nat → Nat → Int

/-- Sequential execution of a list of (offset, count) zero-fill writes with
the abort-on-negative-rc behavior of the RC_WRAP_LABEL macros in
dstore_obj_shrink: the issued calls and the resulting rc are recorded. -/
def runWrites (w : PwriteRc) : List (Nat × Nat) → Int × List (Nat × Nat)
  | [] => (0, [])
  | c :: rest =>
    let rc := w c.1 c.2
    if rc < 0 then
      (rc, [c])
    else
      match rest with
      | [] => (rc, [c])
      | _ :: _ =>
        let r := runWrites w rest
        (r.1, c :: r.2)

/-- Write sequence issued by dstore_obj_shrink (dstore_base.c, lines
125-188): nr_request = count / DSAL_MAX_IO_SIZE full-size writes at
offset + index*DSAL_MAX_IO_SIZE, then one write of the remaining
tail_size bytes when it is non-zero. -/
def shrinkCalls (old_size new_size : Nat) : List (Nat × Nat) :=
  let count := old_size - new_size
  let offset := new_size
  let nr_request := count / DSAL_MAX_IO_SIZE
  let tail_size := count - nr_request * DSAL_MAX_IO_SIZE
  (List.range nr_request).map (fun index => (offset + index * DSAL_MAX_IO_SIZE, DSAL_MAX_IO_SIZE)) ++
  (if tail_size ≠ 0 then [(offset + nr_request * DSAL_MAX_IO_SIZE, tail_size)] else [])

/-- Model of dstore_obj_shrink (dstore_base.c, lines 125-188): zero-fill
the range new_size..old_size through chunked dstore_pwrite calls; the
scratch allocation is assumed to succeed (the -ENOMEM path is not part of
any claim). -/
def dstore_obj_shrink (w : PwriteRc) (old_size new_size : Nat) :
    Int × List (Nat × Nat) :=
  runWrites w (shrinkCalls old_size new_size)

/-- Model of dstore_obj_resize (dstore_base.c, lines 190-215): a no-op
whenever old_size <= new_size, otherwise a shrink. -/
def dstore_obj_resize (w : PwriteRc) (old_size new_size : Nat) :
    Int × List (Nat × Nat) :=
  if old_size ≤ new_size then (0, []) else dstore_obj_shrink w old_size new_size

/-- Boolean prefix test on character lists. -/
def isPfx : List Char → List Char → Bool
  | [], _ => true
  | _ :: _, [] => false
  | a :: as, b :: bs => a == b && isPfx as bs

/-- Registered backend names (dstore_modules in dstore_base.c): the single
cortx entry, terminated by the NULL sentinel in the source. -/
def dstore_modules : List String := ["cortx"]

/-- Match used by dstore_init (dstore_base.c, lines 72-78):
strncmp(dstore_type, module_type, strlen(dstore_type)) == 0.  For
null-free C strings this holds exactly when the configured value is a
prefix of the registered module name. -/
def moduleMatches (dstore_type module_type : String) : Bool :=
  isPfx dstore_type.data module_type.data

/-- Observable outcome of the backend-selection part of dstore_init:
a module was selected, -EINVAL was returned for a missing key, or the
assert(dstore->dstore_ops != NULL) on line 84 fired. -/
inductive InitOutcome where
  | selected (name : String)
  | einval
  | assertfail
deriving DecidableEq

/-- Model of the backend selection in dstore_init (dstore_base.c, lines
51-93): a missing dstore.type key returns -EINVAL; otherwise the module
table is scanned with the strncmp match; when no module matches,
dstore_ops stays NULL and the assert on line 84 aborts instead of
returning an error. -/
def dstore_init_select (cfg_type : Option String) : InitOutcome :=
  match cfg_type with
  | none => .einval
  | some v =>
    match dstore_modules.find? (fun m => moduleMatches v m) with
    | some m => .selected m
    | none => .assertfail

/-- Modelled from the spec: enum dstore_io_op_type is declared in
dstore_internal.h, which is not part of src/; the spec lists the members
WRITE, READ and FREE, and as a C enum any other int value can be passed,
represented here by the extra constructor. -/
inductive dstore_io_op_type where
  | DSTORE_IO_OP_WRITE
  | DSTORE_IO_OP_READ
  | DSTORE_IO_OP_FREE
  | DSTORE_IO_OP_OTHER (v : Int)
deriving DecidableEq

/-- M0 opcodes used by the cortx plugin (M0_OC_* of the external Motr
API). -/
inductive m0_obj_opcode where
  | M0_OC_WRITE
  | M0_OC_READ
  | M0_OC_FREE
deriving DecidableEq

/-- The M0_IN(type, (DSTORE_IO_OP_WRITE, DSTORE_IO_OP_READ,
DSTORE_IO_OP_FREE)) test of cortx_ds_io_op_init (cortx_dstore.c, line
417). -/
def ioOpTypeSupported : dstore_io_op_type → Bool
  | .DSTORE_IO_OP_WRITE => true
  | .DSTORE_IO_OP_READ => true
  | .DSTORE_IO_OP_FREE => true
  | .DSTORE_IO_OP_OTHER _ => false

/-- Model of dstore_io_op_type2m0_op_type (cortx_dstore.c, lines 379-398):
the three supported types map to M0 opcodes; the default branch is a
failed dassert, modelled as none. -/
def dstore_io_op_type2m0_op_type : dstore_io_op_type → Option m0_obj_opcode
  | .DSTORE_IO_OP_WRITE => some .M0_OC_WRITE
  | .DSTORE_IO_OP_READ => some .M0_OC_READ
  | .DSTORE_IO_OP_FREE => some .M0_OC_FREE
  | .DSTORE_IO_OP_OTHER _ => none

/-- Environment of one cortx_ds_io_op_init call: whether M0_ALLOC_PTR
succeeds and the rc of the external m0_obj_op call. -/
structure CortxInitEnv where
  allocOk : Bool
  m0ObjOpRc : Int

/-- Model of cortx_ds_io_op_init (cortx_dstore.c, lines 400-483).  The
result pairs the returned rc with the created operation (its M0 opcode)
written to *out, or none when *out is left untouched.  The type check
comes first: an unsupported type returns RC_WRAP_SET(-EINVAL) before any
allocation; then allocation failure returns -ENOMEM; a negative
m0_obj_op rc frees the partial operation and propagates; otherwise the
operation is set up and handed out. -/
def cortx_ds_io_op_init (env : CortxInitEnv) (type : dstore_io_op_type) :
    Int × Option m0_obj_opcode :=
  if ioOpTypeSupported type = false then
    (eINVAL, none)
  else if env.allocOk = false then
    (eNOMEM, none)
  else if env.m0ObjOpRc < 0 then
    (env.m0ObjOpRc, none)
  else
    (env.m0ObjOpRc, dstore_io_op_type2m0_op_type type)

/-- Model of cortx_ds_obj_del (cortx_dstore.c, lines 210-241): the rc of
the external m0store_delete_object is returned unchanged; -ENOENT only
selects the log_warn branch, any other non-zero rc the log_err branch. -/
def cortx_ds_obj_del (backend_rc : Int) : Int :=
  if backend_rc ≠ 0 then
    if backend_rc = eNOENT then backend_rc else backend_rc
  else
    backend_rc

/-- Model of dstore_obj_delete (dstore_base.c, lines 111-118): the façade
returns the backend obj_delete rc unchanged. -/
def dstore_obj_delete (obj_delete_rc : Int) : Int :=
  obj_delete_rc

/-- Environment of one dstore_io_op_init_and_submit call: the outcome of
the backend io_op_init (ok with the created operation token, or a
negative error with *out untouched, as the cortx backend behaves), and
the backend io_op_submit rc for the created operation. -/
structure IoOpEnv where
  initRes : Except Int Nat
  submitRc : Nat → Int

/-- Observable outcome of dstore_io_op_init_and_submit: the returned rc,
what was stored through the caller's out pointer (none = left unwritten),
and the operations passed to the backend io_op_fini. -/
structure IoOpOutcome where
  rc : Int
  outp : Option Nat
  finalized : List Nat
deriving DecidableEq

/-- Model of dstore_io_op_init_and_submit (dstore_base.c, lines 275-310),
the common body of dstore_io_op_write and dstore_io_op_read: on init
failure result is still NULL, so nothing is finalized and *out is
untouched; on submit failure the created operation is finalized through
io_op_fini and *out is untouched; on success the operation is handed to
the caller and not finalized. -/
def dstore_io_op_init_and_submit (env : IoOpEnv) : IoOpOutcome :=
  match env.initRes with
  | .error rc => { rc := rc, outp := none, finalized := [] }
  | .ok op =>
    let rc := env.submitRc op
    if rc < 0 then
      { rc := rc, outp := none, finalized := [op] }
    else
      { rc := rc, outp := some op, finalized := [] }

/-- Conversion of a C ssize_t value to size_t: reduction modulo 2^64. -/
def to_size_t (v : Int) : Nat :=
  (v % (2 ^ 64 : Int)).toNat

/-- Conversion of a C size_t value back to ssize_t (gcc two's-complement
behavior): values below 2^63 unchanged, larger ones wrap negative. -/
def to_ssize_t (n : Nat) : Int :=
  if n % 2 ^ 64 < 2 ^ 63 then ((n % 2 ^ 64 : Nat) : Int)
  else ((n % 2 ^ 64 : Nat) : Int) - 2 ^ 64

/-- Model of dstore_get_bsize (dstore_base.c, lines 382-403): the
backend's obj_get_bsize ssize_t result is stored into a size_t local rc
and then returned as ssize_t; both conversions preserve the value modulo
2^64. -/
def dstore_get_bsize (backend_bsize : Int) : Int :=
  to_ssize_t (to_size_t backend_bsize)

lemma runWrites_cons_ne (w : PwriteRc) (a : Nat × Nat) (rest : List (Nat × Nat))
    (h : rest ≠ []) :
    runWrites w (a :: rest) =
      if w a.1 a.2 < 0 then (w a.1 a.2, [a])
      else ((runWrites w rest).1, a :: (runWrites w rest).2) := by
  cases rest with
  | nil => exact absurd rfl h
  | cons x xs => simp only [runWrites]

lemma runWrites_all_zero (w : PwriteRc) :
    ∀ calls, (∀ c ∈ calls, w c.1 c.2 = 0) → runWrites w calls = (0, calls) := by
  intro calls
  induction calls with
  | nil => intro _; rfl
  | cons a rest ih =>
    intro h
    have ha : w a.1 a.2 = 0 := h a (by simp)
    cases rest with
    | nil => simp [runWrites, ha]
    | cons x xs =>
      rw [runWrites_cons_ne w a (x :: xs) (by simp)]
      rw [ih (fun c hc => h c (by simp [hc]))]
      simp [ha]

lemma runWrites_abort (w : PwriteRc) :
    ∀ pre c post, (∀ c' ∈ pre, w c'.1 c'.2 = 0) → w c.1 c.2 < 0 →
      runWrites w (pre ++ c :: post) = (w c.1 c.2, pre ++ [c]) := by
  intro pre
  induction pre with
  | nil =>
    intro c post _ hneg
    cases post with
    | nil => simp [runWrites, hneg]
    | cons x xs =>
      rw [List.nil_append, runWrites_cons_ne w c (x :: xs) (by simp)]
      simp [hneg]
  | cons a pre' ih =>
    intro c post h hneg
    have ha : w a.1 a.2 = 0 := h a (by simp)
    rw [List.cons_append, runWrites_cons_ne w a (pre' ++ c :: post) (by simp)]
    rw [ih c post (fun c' hc' => h c' (by simp [hc'])) hneg]
    simp [ha]

lemma shrinkCalls_formula (old_size new_size : Nat) :
    shrinkCalls old_size new_size =
      (List.range ((old_size - new_size) / DSAL_MAX_IO_SIZE)).map
        (fun i => (new_size + i * DSAL_MAX_IO_SIZE, DSAL_MAX_IO_SIZE)) ++
      (if (old_size - new_size) % DSAL_MAX_IO_SIZE ≠ 0 then
        [(new_size + (old_size - new_size) / DSAL_MAX_IO_SIZE * DSAL_MAX_IO_SIZE,
          (old_size - new_size) % DSAL_MAX_IO_SIZE)]
      else []) := by
  have h : old_size - new_size -
      (old_size - new_size) / DSAL_MAX_IO_SIZE * DSAL_MAX_IO_SIZE =
      (old_size - new_size) % DSAL_MAX_IO_SIZE := by
    simp only [DSAL_MAX_IO_SIZE]
    omega
  simp only [shrinkCalls, h]

/-- C4: dstore_obj_resize with old_size <= new_size returns 0 and issues no
writes; with old_size > new_size it issues floor((old-new)/2^20) pwrite
calls of DSAL_MAX_IO_SIZE zero bytes at offsets new_size + i*2^20 followed
by at most one trailing write of the remainder, returning 0 when all
sub-writes succeed and aborting with the first negative rc otherwise. -/
theorem dstore_obj_resize_spec (w : PwriteRc) (old_size new_size : Nat) :
    (old_size ≤ new_size → dstore_obj_resize w old_size new_size = (0, [])) ∧
    (shrinkCalls old_size new_size =
      (List.range ((old_size - new_size) / DSAL_MAX_IO_SIZE)).map
        (fun i => (new_size + i * DSAL_MAX_IO_SIZE, DSAL_MAX_IO_SIZE)) ++
      (if (old_size - new_size) % DSAL_MAX_IO_SIZE ≠ 0 then
        [(new_size + (old_size - new_size) / DSAL_MAX_IO_SIZE * DSAL_MAX_IO_SIZE,
          (old_size - new_size) % DSAL_MAX_IO_SIZE)]
      else [])) ∧
    (new_size < old_size → (∀ c ∈ shrinkCalls old_size new_size, w c.1 c.2 = 0) →
      dstore_obj_resize w old_size new_size = (0, shrinkCalls old_size new_size)) ∧
    (∀ pre c post, new_size < old_size →
      shrinkCalls old_size new_size = pre ++ c :: post →
      (∀ c' ∈ pre, w c'.1 c'.2 = 0) → w c.1 c.2 < 0 →
      dstore_obj_resize w old_size new_size = (w c.1 c.2, pre ++ [c])) := by
  refine ⟨?_, shrinkCalls_formula old_size new_size, ?_, ?_⟩
  · intro h
    simp [dstore_obj_resize, h]
  · intro h hall
    rw [dstore_obj_resize, if_neg (by omega), dstore_obj_shrink]
    exact runWrites_all_zero w _ hall
  · intro pre c post h hsplit hpre hneg
    rw [dstore_obj_resize, if_neg (by omega), dstore_obj_shrink, hsplit]
    exact runWrites_abort w pre c post hpre hneg

theorem dstore_obj_resize_spec_witness :
    dstore_obj_resize (fun _ _ => 0) 3 5 = (0, []) ∧
    dstore_obj_resize (fun _ _ => 0) (2 ^ 20 + 5) 0 =
      (0, [(0, 2 ^ 20), (2 ^ 20, 5)]) := by
  constructor
  · exact (dstore_obj_resize_spec (fun _ _ => 0) 3 5).1 (by omega)
  · have h := (dstore_obj_resize_spec (fun _ _ => 0) (2 ^ 20 + 5) 0).2.2.1
      (by omega) (fun c _ => rfl)
    rw [h]
    rfl

lemma isPfx_iff (a b : List Char) : isPfx a b = true ↔ ∃ t, a ++ t = b := by
  induction a generalizing b with
  | nil => simp [isPfx]
  | cons x xs ih =>
    cases b with
    | nil => simp [isPfx]
    | cons y ys => simp [isPfx, ih]

/-- C5 counterexample: the configured value cor is not a registered
backend name, yet dstore_init selects the cortx backend because the
strncmp in the module scan is bounded by strlen of the configured value
(a prefix match), so the claimed -EINVAL outcome does not occur. -/
theorem dstore_init_partial_name_cex :
    dstore_init_select (some "cor") = .selected "cortx" ∧
    ¬ ("cor" ∈ dstore_modules) ∧
    dstore_init_select (some "cor") ≠ .einval := by
  refine ⟨by decide, by decide, by decide⟩

/-- C5 amended: dstore_init selects the first backend whose registered
name has the configured dstore.type value as a prefix (the strncmp is
bounded by strlen of the value); a missing key yields -EINVAL, while a
value that is a prefix of no registered name trips the
assert(dstore_ops != NULL) instead of returning -EINVAL. -/
theorem dstore_init_selection_amended (v : String) :
    dstore_init_select none = .einval ∧
    ((∃ t, v.data ++ t = "cortx".data) →
      dstore_init_select (some v) = .selected "cortx") ∧
    (¬ (∃ t, v.data ++ t = "cortx".data) →
      dstore_init_select (some v) = .assertfail) := by
  refine ⟨rfl, ?_, ?_⟩
  · intro ht
    have h : moduleMatches v "cortx" = true := (isPfx_iff _ _).mpr ht
    simp [dstore_init_select, dstore_modules, List.find?, h]
  · intro ht
    have h : moduleMatches v "cortx" = false := by
      rw [← Bool.not_eq_true, moduleMatches, isPfx_iff]
      exact ht
    simp [dstore_init_select, dstore_modules, List.find?, h]

theorem dstore_init_selection_amended_witness :
    dstore_init_select none = .einval ∧
    dstore_init_select (some "cortx") = .selected "cortx" ∧
    dstore_init_select (some "zzz") = .assertfail := by
  refine ⟨(dstore_init_selection_amended "cortx").1,
          (dstore_init_selection_amended "cortx").2.1 ⟨[], by decide⟩,
          (dstore_init_selection_amended "zzz").2.2 ?_⟩
  rintro ⟨t, h⟩
  injection h with h1 _
  exact absurd h1 (by decide)

/-- C7: cortx_ds_io_op_init accepts exactly the WRITE, READ and FREE
operation types; any other type is rejected with -EINVAL before any
allocation, leaving the out pointer untouched, while a supported type
proceeds to create an operation carrying the corresponding M0 opcode
whenever allocation and the backend op-creation succeed. -/
theorem cortx_io_op_init_type_check (env : CortxInitEnv)
    (type : dstore_io_op_type) :
    (ioOpTypeSupported type = true ↔
      (type = .DSTORE_IO_OP_WRITE ∨ type = .DSTORE_IO_OP_READ ∨
       type = .DSTORE_IO_OP_FREE)) ∧
    (ioOpTypeSupported type = false →
      cortx_ds_io_op_init env type = (eINVAL, none)) ∧
    (ioOpTypeSupported type = true → env.allocOk = true → 0 ≤ env.m0ObjOpRc →
      ∃ opc, dstore_io_op_type2m0_op_type type = some opc ∧
        cortx_ds_io_op_init env type = (env.m0ObjOpRc, some opc)) := by
  refine ⟨?_, ?_, ?_⟩
  · cases type <;> simp [ioOpTypeSupported]
  · intro h
    simp [cortx_ds_io_op_init, h]
  · intro h halloc hrc
    cases type with
    | DSTORE_IO_OP_OTHER v => simp [ioOpTypeSupported] at h
    | DSTORE_IO_OP_WRITE =>
      exact ⟨.M0_OC_WRITE, rfl, by
        simp [cortx_ds_io_op_init, ioOpTypeSupported, halloc,
              dstore_io_op_type2m0_op_type, not_lt.mpr hrc]⟩
    | DSTORE_IO_OP_READ =>
      exact ⟨.M0_OC_READ, rfl, by
        simp [cortx_ds_io_op_init, ioOpTypeSupported, halloc,
              dstore_io_op_type2m0_op_type, not_lt.mpr hrc]⟩
    | DSTORE_IO_OP_FREE =>
      exact ⟨.M0_OC_FREE, rfl, by
        simp [cortx_ds_io_op_init, ioOpTypeSupported, halloc,
              dstore_io_op_type2m0_op_type, not_lt.mpr hrc]⟩

theorem cortx_io_op_init_type_check_witness :
    cortx_ds_io_op_init ⟨true, 0⟩ (.DSTORE_IO_OP_OTHER 7) = (eINVAL, none) ∧
    cortx_ds_io_op_init ⟨true, 0⟩ .DSTORE_IO_OP_READ = (0, some .M0_OC_READ) := by
  constructor
  · exact (cortx_io_op_init_type_check ⟨true, 0⟩ (.DSTORE_IO_OP_OTHER 7)).2.1 rfl
  · obtain ⟨opc, h1, h2⟩ :=
      (cortx_io_op_init_type_check ⟨true, 0⟩ .DSTORE_IO_OP_READ).2.2 rfl rfl
        (le_refl 0)
    simp [dstore_io_op_type2m0_op_type] at h1
    rw [← h1] at h2
    exact h2

/-- C8: when the backend delete reports -ENOENT, cortx_ds_obj_del only
logs a warning and returns -ENOENT, and dstore_obj_delete hands that rc
to the caller unchanged; it is never converted into 0. -/
theorem dstore_obj_delete_enoent :
    cortx_ds_obj_del eNOENT = eNOENT ∧
    dstore_obj_delete (cortx_ds_obj_del eNOENT) = eNOENT ∧
    dstore_obj_delete (cortx_ds_obj_del eNOENT) ≠ 0 := by
  refine ⟨by decide, by decide, by decide⟩

/-- C9: whenever dstore_io_op_init_and_submit (the body of
dstore_io_op_write and dstore_io_op_read) returns an error rc, the
caller's out pointer is left unwritten; when the operation had already
been created by io_op_init before the failure it is finalized through the
backend io_op_fini, and when io_op_init itself failed nothing is
finalized. -/
theorem dstore_io_op_atomicity (env : IoOpEnv)
    (_hinit : ∀ e, env.initRes = .error e → e < 0)
    (hfail : (dstore_io_op_init_and_submit env).rc < 0) :
    (dstore_io_op_init_and_submit env).outp = none ∧
    (∀ op, env.initRes = .ok op →
      (dstore_io_op_init_and_submit env).finalized = [op]) ∧
    (∀ e, env.initRes = .error e →
      (dstore_io_op_init_and_submit env).finalized = []) := by
  cases h : env.initRes with
  | error rc =>
    refine ⟨by simp [dstore_io_op_init_and_submit, h], ?_, ?_⟩
    · intro op hop
      exact nomatch hop
    · intro e _
      simp [dstore_io_op_init_and_submit, h]
  | ok op =>
    by_cases hs : env.submitRc op < 0
    · refine ⟨by simp [dstore_io_op_init_and_submit, h, hs], ?_, ?_⟩
      · intro op' hop'
        cases hop'
        simp [dstore_io_op_init_and_submit, h, hs]
      · intro e he
        exact nomatch he
    · exfalso
      simp [dstore_io_op_init_and_submit, h, hs] at hfail

theorem dstore_io_op_atomicity_witness :
    (dstore_io_op_init_and_submit ⟨.ok 1, fun _ => -5⟩).outp = none ∧
    (dstore_io_op_init_and_submit ⟨.ok 1, fun _ => -5⟩).finalized = [1] := by
  have h := dstore_io_op_atomicity ⟨.ok 1, fun _ => -5⟩
    (fun e he => nomatch he) (by decide)
  exact ⟨h.1, h.2.1 1 rfl⟩

/-- C10: dstore_get_bsize returns the backend obj_get_bsize value
unchanged for every value representable in 64 bits: the detour through an
unsigned size_t local preserves the value modulo 2^64, so negative -errno
results reach the caller intact. -/
theorem dstore_get_bsize_passthrough (v : Int)
    (h1 : -(2 ^ 63) ≤ v) (h2 : v < 2 ^ 63) :
    dstore_get_bsize v = v ∧ to_size_t (dstore_get_bsize v) = to_size_t v := by
  have hmain : dstore_get_bsize v = v := by
    unfold dstore_get_bsize to_ssize_t to_size_t
    split <;> omega
  exact ⟨hmain, by rw [hmain]⟩

theorem dstore_get_bsize_passthrough_witness :
    dstore_get_bsize (-2) = -2 ∧ dstore_get_bsize 4096 = 4096 :=
  ⟨(dstore_get_bsize_passthrough (-2) (by norm_num) (by norm_num)).1,
   (dstore_get_bsize_passthrough 4096 (by norm_num) (by norm_num)).1⟩

/-- C6: for every offset, count and bs, dstore_pwrite and dstore_pread
dispatch to the aligned primitive (the hole-tolerant aligned reader for
reads) exactly when both offset and count are multiples of bs, and to
pwrite_unaligned / pread_unaligned otherwise. -/
theorem dstore_io_dispatch (bs : Nat) (st : Store) (off count : Nat)
    (buf : List Byte) (_hbs : 0 < bs) :
    ((bs ∣ off ∧ bs ∣ count) →
      dstore_pwrite bs st off count buf = pwrite_aligned bs st buf off ∧
      dstore_pread bs st off count =
        pread_aligned_handle_holes (storeBackend bs st) bs count off) ∧
    (¬ (bs ∣ off ∧ bs ∣ count) →
      dstore_pwrite bs st off count buf = pwrite_unaligned bs st off count buf ∧
      dstore_pread bs st off count = pread_unaligned bs st off count) := by
  have hc : count % bs = 0 ↔ bs ∣ count := Nat.dvd_iff_mod_eq_zero.symm
  have ho : off % bs = 0 ↔ bs ∣ off := Nat.dvd_iff_mod_eq_zero.symm
  constructor
  · rintro ⟨d1, d2⟩
    rw [dstore_pwrite, dstore_pread, if_pos ⟨hc.mpr d2, ho.mpr d1⟩,
        if_pos ⟨hc.mpr d2, ho.mpr d1⟩]
    exact ⟨rfl, rfl⟩
  · intro hn
    have hn' : ¬ (count % bs = 0 ∧ off % bs = 0) := by
      rw [hc, ho]
      tauto
    rw [dstore_pwrite, dstore_pread, if_neg hn', if_neg hn']
    exact ⟨rfl, rfl⟩

theorem dstore_io_dispatch_witness :
    dstore_pread 2 (fun _ => none) 0 2 =
      pread_aligned_handle_holes (storeBackend 2 (fun _ => none)) 2 2 0 ∧
    dstore_pread 2 (fun _ => none) 1 1 = pread_unaligned 2 (fun _ => none) 1 1 :=
  ⟨((dstore_io_dispatch 2 (fun _ => none) 0 2 [] (by decide)).1
      ⟨⟨0, rfl⟩, ⟨1, rfl⟩⟩).2,
   ((dstore_io_dispatch 2 (fun _ => none) 1 1 [] (by decide)).2
      (by decide)).2⟩

lemma getD_append_left {α : Type} (a b : List α) (i : Nat) (d : α)
    (h : i < a.length) : (a ++ b).getD i d = a.getD i d := by
  simp [List.getD_eq_getElem?_getD, List.getElem?_append, h]

lemma getD_append_after {α : Type} (a b : List α) (i : Nat) (d : α)
    (h : a.length ≤ i) : (a ++ b).getD i d = b.getD (i - a.length) d := by
  simp [List.getD_eq_getElem?_getD, List.getElem?_append_right h]

lemma getD_take_lt {α : Type} (l : List α) (n i : Nat) (d : α) (h : i < n) :
    (l.take n).getD i d = l.getD i d := by
  simp [List.getD_eq_getElem?_getD, List.getElem?_take, h]

lemma getD_drop_add {α : Type} (l : List α) (m i : Nat) (d : α) :
    (l.drop m).getD i d = l.getD (m + i) d := by
  simp [List.getD_eq_getElem?_getD, List.getElem?_drop]

lemma getD_map_range (l : List Byte) (d : Byte) :
    (List.range l.length).map (fun r => l.getD r d) = l := by
  induction l with
  | nil => rfl
  | cons x xs ih =>
    rw [List.length_cons, List.range_succ_eq_map, List.map_cons, List.map_map]
    have h2 : ∀ r ∈ List.range xs.length,
        ((fun r => (x :: xs).getD r d) ∘ (· + 1)) r = (fun r => xs.getD r d) r :=
      fun r _ => rfl
    rw [List.map_congr_left h2, ih]
    rfl

lemma map_range_add (f : Nat → Byte) (a b : Nat) :
    (List.range (a + b)).map f =
      (List.range a).map f ++ (List.range b).map (fun j => f (a + j)) := by
  rw [List.range_add, List.map_append, List.map_map]
  rfl

lemma catMap_append (f : Nat → List Byte) (a b : List Nat) :
    catMap f (a ++ b) = catMap f a ++ catMap f b := by
  induction a with
  | nil => rfl
  | cons x xs ih => simp [catMap, ih]

lemma catMap_blocks (g : Nat → Byte) (bs : Nat) :
    ∀ (k : Nat) (f : Nat → List Byte),
      (∀ i, i < k → f i = (List.range bs).map (fun r => g (i * bs + r))) →
      catMap f (List.range k) = (List.range (k * bs)).map g := by
  intro k
  induction k with
  | zero =>
    intro f _
    rw [Nat.zero_mul]
    rfl
  | succ k ih =>
    intro f hf
    rw [List.range_succ, catMap_append, ih f (fun i hi => hf i (by omega))]
    show (List.range (k * bs)).map g ++ (f k ++ []) = (List.range ((k + 1) * bs)).map g
    rw [List.append_nil, hf k (by omega)]
    have hmul : (k + 1) * bs = k * bs + bs := by ring
    rw [hmul, map_range_add]

/-- Bytes of the object visible at offsets off..off+n through the logical
content function byteAt. -/
def readBytes (bs : Nat) (st : Store) (off n : Nat) : List Byte :=
  (List.range n).map (fun j => byteAt bs st (off + j))

lemma readBytes_length (bs : Nat) (st : Store) (off n : Nat) :
    (readBytes bs st off n).length = n := by
  simp [readBytes]

lemma readBytes_split (bs : Nat) (st : Store) (off a b : Nat) :
    readBytes bs st off (a + b) =
      readBytes bs st off a ++ readBytes bs st (off + a) b := by
  rw [readBytes, map_range_add]
  congr 1
  apply List.map_congr_left
  intro j _
  simp [readBytes, Nat.add_assoc]

lemma readBytes_take (bs : Nat) (st : Store) (off m n : Nat) (h : m ≤ n) :
    (readBytes bs st off n).take m = readBytes bs st off m := by
  rw [readBytes, ← List.map_take, List.take_range, Nat.min_eq_left h, readBytes]

lemma readBytes_drop (bs : Nat) (st : Store) (off d n : Nat) (h : d ≤ n) :
    (readBytes bs st off n).drop d = readBytes bs st (off + d) (n - d) := by
  conv_lhs => rw [show n = d + (n - d) by omega, readBytes_split]
  have hl : (readBytes bs st off d).length = d := readBytes_length bs st off d
  nth_rewrite 1 [← hl]
  exact List.drop_left _ _

lemma block_bytes (bs : Nat) (st : Store) (hbs : 0 < bs) (hwf : wfStore bs st)
    (i : Nat) (b : List Byte) (h : st i = some b) :
    b = readBytes bs st (i * bs) bs := by
  have hlen : b.length = bs := hwf i b h
  conv_lhs => rw [← getD_map_range b 0]
  rw [hlen, readBytes]
  apply List.map_congr_left
  intro r hr
  rw [List.mem_range] at hr
  have hco : i * bs + r = bs * i + r := by ring
  have hdiv : (i * bs + r) / bs = i := by
    rw [hco, Nat.mul_add_div hbs, Nat.div_eq_of_lt hr, Nat.add_zero]
  have hmod : (i * bs + r) % bs = r := by
    rw [hco, Nat.mul_add_mod, Nat.mod_eq_of_lt hr]
  simp [byteAt, hdiv, hmod, h]

lemma hole_bytes (bs : Nat) (st : Store) (hbs : 0 < bs) (i : Nat)
    (h : st i = none) :
    List.replicate bs (0 : Byte) = readBytes bs st (i * bs) bs := by
  symm
  rw [readBytes, List.eq_replicate_iff]
  refine ⟨by simp, ?_⟩
  intro x hx
  obtain ⟨r, hr, rfl⟩ := List.mem_map.mp hx
  rw [List.mem_range] at hr
  have hco : i * bs + r = bs * i + r := by ring
  have hdiv : (i * bs + r) / bs = i := by
    rw [hco, Nat.mul_add_div hbs, Nat.div_eq_of_lt hr, Nat.add_zero]
  simp [byteAt, hdiv, h]

lemma blk_abs (bs off : Nat) (hbs : 0 < bs) (hoff : bs ∣ off) (i : Nat) :
    (off / bs + i) * bs = off + i * bs := by
  obtain ⟨o, rfl⟩ := hoff
  rw [Nat.mul_div_cancel_left o hbs]
  ring

lemma block_readBytes_shift (bs : Nat) (st : Store) (off i : Nat) :
    readBytes bs st (off + i * bs) bs =
      (List.range bs).map (fun r => byteAt bs st (off + (i * bs + r))) := by
  rw [readBytes]
  apply List.map_congr_left
  intro r _
  congr 1
  omega

lemma div_shift_one (bs : Nat) (hbs : 0 < bs) (off i : Nat) (hoff : bs ∣ off) :
    (off + i * bs) / bs = off / bs + i := by
  obtain ⟨o, rfl⟩ := hoff
  have h1 : bs * o + i * bs = bs * (o + i) := by ring
  rw [h1, Nat.mul_div_cancel_left (o + i) hbs, Nat.mul_div_cancel_left o hbs]

lemma backendReadAligned_one_some (bs : Nat) (st : Store) (hbs : 0 < bs)
    (off i : Nat) (hoff : bs ∣ off) (b : List Byte)
    (h : st (off / bs + i) = some b) :
    backendReadAligned bs st (off + i * bs) bs = .ok b := by
  have hdiv := div_shift_one bs hbs off i hoff
  have hk : bs / bs = 1 := Nat.div_self hbs
  have hr1 : List.range 1 = [0] := rfl
  simp only [backendReadAligned, hdiv, hk, hr1, List.all_cons, List.all_nil,
    Bool.and_true, Nat.add_zero, catMap, List.append_nil]
  simp [h]

lemma backendReadAligned_one_none (bs : Nat) (st : Store) (hbs : 0 < bs)
    (off i : Nat) (hoff : bs ∣ off) (h : st (off / bs + i) = none) :
    backendReadAligned bs st (off + i * bs) bs = .error eNOENT := by
  have hdiv := div_shift_one bs hbs off i hoff
  have hk : bs / bs = 1 := Nat.div_self hbs
  have hr1 : List.range 1 = [0] := rfl
  simp only [backendReadAligned, hdiv, hk, hr1, List.all_cons, List.all_nil,
    Bool.and_true, Nat.add_zero, catMap, List.append_nil]
  simp [h]

lemma holesLoop_store (bs : Nat) (st : Store) (hbs : 0 < bs)
    (hwf : wfStore bs st) (off : Nat) (hoff : bs ∣ off) :
    ∀ js : List Nat,
      holesLoop (storeBackend bs st) bs off js =
        .ok (catMap (fun i => readBytes bs st (off + i * bs) bs) js) := by
  intro js
  induction js with
  | nil => rfl
  | cons i rest ih =>
    simp only [holesLoop, pread_aligned, storeBackend]
    cases h : st (off / bs + i) with
    | some b =>
      rw [backendReadAligned_one_some bs st hbs off i hoff b h, ih]
      simp only [Except.map, catMap]
      have hb : b = readBytes bs st (off + i * bs) bs := by
        rw [← blk_abs bs off hbs hoff i]
        exact block_bytes bs st hbs hwf _ b h
      rw [hb]
    | none =>
      rw [backendReadAligned_one_none bs st hbs off i hoff h, ih]
      simp only [Except.map, catMap]
      rw [if_pos trivial]
      have hz : List.replicate bs (0 : Byte) = readBytes bs st (off + i * bs) bs := by
        rw [← blk_abs bs off hbs hoff i]
        exact hole_bytes bs st hbs _ h
      rw [hz]

lemma catMap_readBytes (bs : Nat) (st : Store) (off k : Nat) :
    catMap (fun i => readBytes bs st (off + i * bs) bs) (List.range k) =
      readBytes bs st off (k * bs) := by
  rw [readBytes]
  apply catMap_blocks
  intro i _
  exact block_readBytes_shift bs st off i

lemma catMap_congr (f g : Nat → List Byte) :
    ∀ js : List Nat, (∀ i ∈ js, f i = g i) → catMap f js = catMap g js := by
  intro js
  induction js with
  | nil => intro _; rfl
  | cons x xs ih =>
    intro h
    simp only [catMap]
    rw [h x (by simp), ih (fun i hi => h i (by simp [hi]))]

lemma backendReadAligned_all (bs : Nat) (st : Store) (hbs : 0 < bs)
    (hwf : wfStore bs st) (off size : Nat) (hoff : bs ∣ off)
    (hall : ∀ i, i < size / bs → (st (off / bs + i)).isSome) :
    backendReadAligned bs st off size =
      .ok (readBytes bs st off (size / bs * bs)) := by
  simp only [backendReadAligned]
  rw [if_pos]
  · congr 1
    rw [← catMap_readBytes bs st off (size / bs)]
    apply catMap_congr
    intro i hi
    rw [List.mem_range] at hi
    obtain ⟨b, hb⟩ := Option.isSome_iff_exists.mp (hall i hi)
    rw [hb]
    have : b = readBytes bs st (off + i * bs) bs := by
      rw [← blk_abs bs off hbs hoff i]
      exact block_bytes bs st hbs hwf _ b hb
    simp [this]
  · rw [List.all_eq_true]
    intro x hx
    rw [List.mem_range] at hx
    exact hall x hx

lemma backendReadAligned_miss (bs : Nat) (st : Store) (off size : Nat)
    (hmiss : ¬ ∀ i, i < size / bs → (st (off / bs + i)).isSome) :
    backendReadAligned bs st off size = .error eNOENT := by
  simp only [backendReadAligned]
  rw [if_neg]
  intro hc
  rw [List.all_eq_true] at hc
  exact hmiss (fun i hi => hc i (List.mem_range.mpr hi))

lemma hh_store_ok (bs : Nat) (st : Store) (hbs : 0 < bs) (hwf : wfStore bs st)
    (buf_size off : Nat) (hoff : bs ∣ off) :
    pread_aligned_handle_holes (storeBackend bs st) bs buf_size off =
      .ok (readBytes bs st off (buf_size / bs * bs)) := by
  simp only [pread_aligned_handle_holes, pread_aligned, storeBackend]
  by_cases hall : ∀ i, i < buf_size / bs → (st (off / bs + i)).isSome
  · rw [backendReadAligned_all bs st hbs hwf off buf_size hoff hall]
  · rw [backendReadAligned_miss bs st off buf_size hall]
    dsimp only
    rw [if_pos rfl]
    rw [holesLoop_store bs st hbs hwf off hoff (List.range (buf_size / bs))]
    rw [catMap_readBytes bs st off (buf_size / bs)]

lemma listStore_length (l v : List Byte) (pos : Nat)
    (h : pos + v.length ≤ l.length) :
    (listStore l pos v).length = l.length := by
  simp only [listStore, List.length_append, List.length_take, List.length_drop]
  omega

lemma listStore_getD (l v : List Byte) (pos i : Nat) (d : Byte)
    (hpos : pos ≤ l.length) (hi : i < v.length) :
    (listStore l pos v).getD (pos + i) d = v.getD i d := by
  rw [listStore, List.append_assoc]
  have h1 : (l.take pos).length = pos := by
    rw [List.length_take]
    omega
  rw [getD_append_after (l.take pos) _ (pos + i) d (by rw [h1]; omega), h1,
    Nat.add_sub_cancel_left]
  exact getD_append_left v _ i d hi

lemma backendWriteAligned_wf (bs : Nat) (st : Store) (hbs : 0 < bs)
    (hwf : wfStore bs st) (off : Nat) (data : List Byte)
    (hdvd : bs ∣ data.length) :
    wfStore bs (backendWriteAligned bs st off data) := by
  intro j b h
  simp only [backendWriteAligned] at h
  split_ifs at h with hc
  · injection h with h
    subst h
    rw [List.length_take, List.length_drop]
    obtain ⟨k, hk⟩ := hdvd
    have hq : data.length / bs = k := by
      rw [hk]
      exact Nat.mul_div_cancel_left k hbs
    have hlen2 : data.length = k * bs := by rw [hk]; ring
    have hj2 : j - off / bs + 1 ≤ k := by omega
    have hmle : (j - off / bs + 1) * bs ≤ k * bs := Nat.mul_le_mul_right bs hj2
    have hexp : (j - off / bs + 1) * bs = (j - off / bs) * bs + bs := by ring
    omega
  · exact hwf j b h

lemma byteAt_write (bs : Nat) (st : Store) (hbs : 0 < bs) (wo i r : Nat)
    (data : List Byte) (hr : r < bs) (hi : i < data.length / bs) :
    byteAt bs (backendWriteAligned bs st wo data) (bs * (wo / bs + i) + r) =
      data.getD (i * bs + r) 0 := by
  have hdiv : (bs * (wo / bs + i) + r) / bs = wo / bs + i := by
    rw [Nat.mul_add_div hbs, Nat.div_eq_of_lt hr, Nat.add_zero]
  have hmod : (bs * (wo / bs + i) + r) % bs = r := by
    rw [Nat.mul_add_mod, Nat.mod_eq_of_lt hr]
  simp only [byteAt, hdiv, hmod, backendWriteAligned]
  rw [if_pos ⟨Nat.le_add_right (wo / bs) i, by omega⟩]
  dsimp only
  rw [Nat.add_sub_cancel_left, getD_take_lt _ _ _ _ hr, getD_drop_add]

lemma u32_eq (n : Nat) (h : n < U32) : u32 n = n := Nat.mod_eq_of_lt h

lemma listStore_nil (l : List Byte) (p : Nat) : listStore l p [] = l := by
  simp [listStore, List.take_append_drop]

lemma listStore_after (P rest v : List Byte) :
    listStore (P ++ rest) P.length v = P ++ (v ++ rest.drop v.length) := by
  simp only [listStore, List.take_left]
  have hd : (P ++ rest).drop (P.length + v.length) = rest.drop v.length := by
    rw [← List.drop_drop, List.drop_left]
  rw [hd, List.append_assoc]

lemma preadTail_ok (bs : Nat) (st : Store) (hbs : 0 < bs) (hwf : wfStore bs st)
    (off count buf_pos : Nat) (buf P rest : List Byte)
    (hbuf : buf = P ++ rest) (hbp : buf_pos = P.length)
    (hoff : bs ∣ off) (hcnt : count ≤ bs) :
    preadTail bs st off count buf_pos buf =
      .ok (P ++ (readBytes bs st off count ++ rest.drop count)) := by
  subst hbuf
  subst hbp
  simp only [preadTail]
  by_cases h0 : count = 0
  · subst h0
    rw [if_pos rfl]
    simp [readBytes]
  · rw [if_neg h0, hh_store_ok bs st hbs hwf bs off hoff]
    have hbb : bs / bs * bs = bs := by rw [Nat.div_self hbs, Nat.one_mul]
    rw [hbb]
    dsimp only
    rw [readBytes_take bs st off count bs hcnt, listStore_after, readBytes_length]

lemma preadCont_ok (bs : Nat) (st : Store) (hbs : 0 < bs) (hwf : wfStore bs st)
    (off count buf_pos : Nat) (buf P rest : List Byte)
    (hbuf : buf = P ++ rest) (hbp : buf_pos = P.length)
    (hoff : bs ∣ off) (hsum : buf_pos + count < U32) :
    preadCont bs st off count buf_pos buf =
      .ok (P ++ (readBytes bs st off count ++ rest.drop count)) := by
  simp only [preadCont]
  have hcu : u32 (count / bs) = count / bs := by
    apply u32_eq
    have h1 : count / bs ≤ count := Nat.div_le_self count bs
    omega
  rw [hcu]
  by_cases hc : 0 < count / bs
  · rw [if_pos hc, hh_store_ok bs st hbs hwf (count / bs * bs) off hoff]
    have hq : count / bs * bs / bs * bs = count / bs * bs := by
      rw [Nat.mul_div_cancel _ hbs]
    rw [hq]
    dsimp only
    have hdm : count / bs * bs + count % bs = count := Nat.div_add_mod' count bs
    have hml : count % bs < bs := Nat.mod_lt _ hbs
    have hdvd2 : bs ∣ off + count / bs * bs :=
      dvd_add hoff ⟨count / bs, Nat.mul_comm _ _⟩
    have hbp2 : u32 (buf_pos + count / bs * bs) = buf_pos + count / bs * bs := by
      apply u32_eq
      omega
    rw [hbp2, hbuf, hbp, listStore_after, readBytes_length]
    rw [← List.append_assoc]
    have htail := preadTail_ok bs st hbs hwf (off + count / bs * bs)
      (count - count / bs * bs) (P.length + count / bs * bs)
      ((P ++ readBytes bs st off (count / bs * bs)) ++
        rest.drop (count / bs * bs))
      (P ++ readBytes bs st off (count / bs * bs))
      (rest.drop (count / bs * bs))
      rfl (by rw [List.length_append, readBytes_length]) hdvd2 (by omega)
    rw [htail]
    rw [List.drop_drop]
    rw [show count / bs * bs + (count - count / bs * bs) = count from by omega]
    have hsplitc : readBytes bs st off count =
        readBytes bs st off (count / bs * bs) ++
          readBytes bs st (off + count / bs * bs) (count - count / bs * bs) := by
      conv_lhs => rw [show count = count / bs * bs + (count - count / bs * bs) from by omega]
      rw [readBytes_split]
    rw [hsplitc]
    simp [List.append_assoc]
  · rw [if_neg hc]
    have h0 : count / bs = 0 := Nat.eq_zero_of_not_pos hc
    have hdm := Nat.div_add_mod count bs
    rw [h0, Nat.mul_zero, Nat.zero_add] at hdm
    have hml : count % bs < bs := Nat.mod_lt _ hbs
    exact preadTail_ok bs st hbs hwf off count buf_pos buf P rest hbuf hbp hoff
      (by omega)

lemma left_blk_num_eq (bs off : Nat) (h : off / bs < U32) :
    left_blk_num bs off = off / bs := u32_eq _ h

lemma pread_unaligned_ok (bs : Nat) (st : Store) (hbs : 0 < bs)
    (hwf : wfStore bs st) (off count : Nat) (h32bs : bs < U32)
    (h32c : count < U32) (hq32 : off / bs < U32) :
    pread_unaligned bs st off count = .ok (readBytes bs st off count) := by
  simp only [pread_unaligned]
  by_cases hA : off % bs = 0 ∧ bs ≤ count
  · rw [if_pos hA]
    have hoff : bs ∣ off := Nat.dvd_iff_mod_eq_zero.mpr hA.1
    have hcont := preadCont_ok bs st hbs hwf off count 0
      (List.replicate count 0) [] (List.replicate count 0)
      (List.nil_append _).symm rfl hoff (by omega)
    rw [hcont, List.nil_append, List.drop_eq_nil_of_le (by simp),
      List.append_nil]
  · rw [if_neg hA]
    rw [left_blk_num_eq bs off hq32]
    have hdm : off / bs * bs + off % bs = off := Nat.div_add_mod' off bs
    have hmlt : off % bs < bs := Nat.mod_lt _ hbs
    have hl1 : off - off / bs * bs = off % bs := by omega
    rw [hl1]
    have hlb : u32 (off % bs) = off % bs := u32_eq _ (by omega)
    rw [hlb]
    have hrb : u32 (bs - off % bs) = bs - off % bs := u32_eq _ (by omega)
    rw [hrb]
    have hrc : u32 (if count < bs - off % bs then count else bs - off % bs) =
        (if count < bs - off % bs then count else bs - off % bs) := by
      split_ifs <;> exact u32_eq _ (by omega)
    rw [hrc]
    have hoffL : bs ∣ off / bs * bs := ⟨off / bs, Nat.mul_comm _ _⟩
    rw [hh_store_ok bs st hbs hwf bs (off / bs * bs) hoffL]
    have hbb : bs / bs * bs = bs := by rw [Nat.div_self hbs, Nat.one_mul]
    rw [hbb]
    dsimp only
    rw [readBytes_drop bs st (off / bs * bs) (off % bs) bs (le_of_lt hmlt)]
    rw [hdm]
    by_cases hcr : count < bs - off % bs
    · rw [if_pos hcr]
      rw [readBytes_take bs st off count (bs - off % bs) (le_of_lt hcr)]
      rw [if_pos (le_of_lt hcr)]
      have h0 := listStore_after [] (List.replicate count 0)
        (readBytes bs st off count)
      simp only [List.length_nil, List.nil_append] at h0
      rw [h0, readBytes_length, List.drop_eq_nil_of_le (by simp),
        List.append_nil]
    · rw [if_neg hcr]
      rw [readBytes_take bs st off (bs - off % bs) (bs - off % bs) (le_refl _)]
      by_cases hcle : count ≤ bs - off % bs
      · rw [if_pos hcle]
        have hceq : count = bs - off % bs := by omega
        rw [← hceq]
        have h0 := listStore_after [] (List.replicate count 0)
          (readBytes bs st off count)
        simp only [List.length_nil, List.nil_append] at h0
        rw [h0, readBytes_length, List.drop_eq_nil_of_le (by simp),
          List.append_nil]
      · rw [if_neg hcle]
        have h0 := listStore_after [] (List.replicate count 0)
          (readBytes bs st off (bs - off % bs))
        simp only [List.length_nil, List.nil_append] at h0
        rw [h0, readBytes_length]
        have hoff2 : bs ∣ off + (bs - off % bs) := by
          refine ⟨off / bs + 1, ?_⟩
          have hx : bs * (off / bs + 1) = off / bs * bs + bs := by ring
          omega
        have hcont := preadCont_ok bs st hbs hwf (off + (bs - off % bs))
          (count - (bs - off % bs)) (bs - off % bs)
          (readBytes bs st off (bs - off % bs) ++
            (List.replicate count 0).drop (bs - off % bs))
          (readBytes bs st off (bs - off % bs))
          ((List.replicate count 0).drop (bs - off % bs))
          rfl (readBytes_length bs st off (bs - off % bs)).symm hoff2 (by omega)
        rw [hcont]
        rw [List.drop_drop]
        rw [show (bs - off % bs) + (count - (bs - off % bs)) = count from by omega]
        rw [List.drop_eq_nil_of_le (by simp), List.append_nil]
        rw [← readBytes_split]
        rw [show (bs - off % bs) + (count - (bs - off % bs)) = count from by omega]

lemma dstore_pread_ok (bs : Nat) (st : Store) (hbs : 0 < bs)
    (hwf : wfStore bs st) (off count : Nat) (h32bs : bs < U32)
    (h32c : count < U32) (hq32 : off / bs < U32) :
    dstore_pread bs st off count = .ok (readBytes bs st off count) := by
  simp only [dstore_pread]
  by_cases hA : count % bs = 0 ∧ off % bs = 0
  · rw [if_pos hA, hh_store_ok bs st hbs hwf count off
      (Nat.dvd_iff_mod_eq_zero.mpr hA.2)]
    rw [Nat.div_mul_cancel (Nat.dvd_iff_mod_eq_zero.mpr hA.1)]
  · rw [if_neg hA]
    exact pread_unaligned_ok bs st hbs hwf off count h32bs h32c hq32

/-- Untruncated value of the last touched block index, as the source would
compute it with a full-width local. -/
def rightBlkIdeal (bs off count : Nat) : Nat :=
  if (off + count) % bs = 0 then (off + count) / bs - 1 else (off + count) / bs

/-- Untruncated number of touched blocks. -/
def numIdeal (bs off count : Nat) : Nat :=
  rightBlkIdeal bs off count - off / bs + 1

lemma q_pos_of_aligned_end (bs off count : Nat) (_hbs : 0 < bs)
    (hna : ¬(count % bs = 0 ∧ off % bs = 0))
    (hm : (off + count) % bs = 0) : 1 ≤ (off + count) / bs := by
  have hdvd : bs ∣ off + count := Nat.dvd_iff_mod_eq_zero.mpr hm
  have hqmul : (off + count) / bs * bs = off + count := Nat.div_mul_cancel hdvd
  have hcount0 : count ≠ 0 := by
    intro h0
    subst h0
    rw [Nat.add_zero] at hm
    exact hna ⟨Nat.zero_mod bs, hm⟩
  by_contra hc
  push_neg at hc
  have h0 : (off + count) / bs = 0 := Nat.lt_one_iff.mp hc
  rw [h0, Nat.zero_mul] at hqmul
  omega

lemma q_le_of_fit (bs off count : Nat) (hbs : 0 < bs)
    (hfit : off + count ≤ (U32 - 1) * bs) :
    (off + count) / bs ≤ U32 - 1 := by
  have h1 : (off + count) / bs ≤ (U32 - 1) * bs / bs := Nat.div_le_div_right hfit
  rwa [Nat.mul_div_cancel _ hbs] at h1

lemma right_blk_num_eq (bs off count : Nat) (hbs : 0 < bs)
    (hna : ¬(count % bs = 0 ∧ off % bs = 0))
    (hfit : off + count ≤ (U32 - 1) * bs) :
    right_blk_num bs off count = rightBlkIdeal bs off count := by
  have hq := q_le_of_fit bs off count hbs hfit
  have hU : U32 = 4294967296 := by norm_num [U32]
  rw [hU] at hq
  simp only [right_blk_num, rightBlkIdeal]
  by_cases hm : (off + count) % bs = 0
  · rw [if_pos hm, if_pos hm]
    have hq1 := q_pos_of_aligned_end bs off count hbs hna hm
    have hqe : u32 ((off + count) / bs) = (off + count) / bs :=
      u32_eq _ (by rw [hU]; omega)
    rw [hqe, hU]
    omega
  · rw [if_neg hm, if_neg hm]
    exact u32_eq _ (by rw [hU]; omega)

lemma right_blk_ideal_bound (bs off count : Nat) (hbs : 0 < bs)
    (hna : ¬(count % bs = 0 ∧ off % bs = 0)) :
    off / bs ≤ rightBlkIdeal bs off count ∧
    off + count ≤ (rightBlkIdeal bs off count + 1) * bs := by
  simp only [rightBlkIdeal]
  by_cases hm : (off + count) % bs = 0
  · rw [if_pos hm]
    have hdvd : bs ∣ off + count := Nat.dvd_iff_mod_eq_zero.mpr hm
    have hqmul : (off + count) / bs * bs = off + count := Nat.div_mul_cancel hdvd
    have hcount0 : count ≠ 0 := by
      intro h0
      subst h0
      rw [Nat.add_zero] at hm
      exact hna ⟨Nat.zero_mod bs, hm⟩
    have hq1 := q_pos_of_aligned_end bs off count hbs hna hm
    have hLlt : off / bs < (off + count) / bs := by
      rw [Nat.div_lt_iff_lt_mul hbs, hqmul]
      omega
    have hstep : (off + count) / bs - 1 + 1 = (off + count) / bs := by omega
    refine ⟨by omega, ?_⟩
    rw [hstep, hqmul]
  · rw [if_neg hm]
    have hdm : (off + count) / bs * bs + (off + count) % bs = off + count :=
      Nat.div_add_mod' _ _
    have hml : (off + count) % bs < bs := Nat.mod_lt _ hbs
    have hexp : ((off + count) / bs + 1) * bs = (off + count) / bs * bs + bs := by
      ring
    exact ⟨Nat.div_le_div_right (Nat.le_add_right off count), by omega⟩

lemma right_blk_ideal_le (bs off count : Nat) (hbs : 0 < bs)
    (hna : ¬(count % bs = 0 ∧ off % bs = 0))
    (hfit : off + count ≤ (U32 - 1) * bs) :
    rightBlkIdeal bs off count ≤ U32 - 2 := by
  have hq := q_le_of_fit bs off count hbs hfit
  have hU : U32 = 4294967296 := by norm_num [U32]
  rw [hU] at hq ⊢
  simp only [rightBlkIdeal]
  by_cases hm : (off + count) % bs = 0
  · rw [if_pos hm]
    have hq1 := q_pos_of_aligned_end bs off count hbs hna hm
    omega
  · rw [if_neg hm]
    by_contra hcon
    push_neg at hcon
    have hqe : (off + count) / bs = 4294967296 - 1 := by omega
    have h1 : (off + count) / bs * bs ≤ off + count := Nat.div_mul_le_self _ _
    rw [hqe] at h1
    rw [hU] at hfit
    have heq : off + count = (4294967296 - 1) * bs := le_antisymm hfit h1
    apply hm
    rw [heq]
    exact Nat.mul_mod_left _ _

lemma num_of_blks_eq (bs off count : Nat) (hbs : 0 < bs)
    (hna : ¬(count % bs = 0 ∧ off % bs = 0))
    (hfit : off + count ≤ (U32 - 1) * bs) :
    num_of_blks bs off count = numIdeal bs off count := by
  have hLR := (right_blk_ideal_bound bs off count hbs hna).1
  have hR2 := right_blk_ideal_le bs off count hbs hna hfit
  have hU : U32 = 4294967296 := by norm_num [U32]
  have hL32 : off / bs < U32 := by rw [hU] at hR2 ⊢; omega
  simp only [num_of_blks, numIdeal,
    right_blk_num_eq bs off count hbs hna hfit, left_blk_num_eq bs off hL32]
  simp only [u32]
  have h1 : rightBlkIdeal bs off count + U32 - off / bs =
      (rightBlkIdeal bs off count - off / bs) + U32 := by omega
  rw [h1, Nat.add_mod_right]
  have h2 : rightBlkIdeal bs off count - off / bs < U32 :=
    lt_of_le_of_lt (le_trans (Nat.sub_le _ _) hR2) (by rw [hU]; norm_num)
  rw [Nat.mod_eq_of_lt h2]
  have h3 : rightBlkIdeal bs off count - off / bs + 1 < U32 := by
    have h4 := le_trans (Nat.sub_le (rightBlkIdeal bs off count) (off / bs)) hR2
    have h5 : U32 - 2 + 1 < U32 := by rw [hU]; norm_num
    exact lt_of_le_of_lt (Nat.add_le_add_right h4 1) h5
  rw [Nat.mod_eq_of_lt h3]

lemma pwrite_bounds (bs off count : Nat) (hbs : 0 < bs)
    (hna : ¬(count % bs = 0 ∧ off % bs = 0)) :
    off / bs * bs ≤ off ∧
    off - off / bs * bs < bs ∧
    (off - off / bs * bs) + count ≤ numIdeal bs off count * bs ∧
    1 ≤ numIdeal bs off count := by
  obtain ⟨hLR, hup⟩ := right_blk_ideal_bound bs off count hbs hna
  simp only [numIdeal] at *
  have hdm : off / bs * bs + off % bs = off := Nat.div_add_mod' off bs
  have hml : off % bs < bs := Nat.mod_lt _ hbs
  have hnum : rightBlkIdeal bs off count - off / bs + 1 =
      rightBlkIdeal bs off count + 1 - off / bs := by omega
  have hsub : (rightBlkIdeal bs off count + 1 - off / bs) * bs =
      (rightBlkIdeal bs off count + 1) * bs - off / bs * bs := Nat.sub_mul _ _ _
  have hmono : off / bs * bs ≤ (rightBlkIdeal bs off count + 1) * bs :=
    Nat.mul_le_mul_right bs (by omega)
  refine ⟨Nat.div_mul_le_self off bs, by omega, ?_, by omega⟩
  rw [hnum, hsub]
  omega

lemma pwriteLeftEdge_ok (bs : Nat) (st : Store) (hbs : 0 < bs)
    (hwf : wfStore bs st) (off L : Nat) (tmp : List Byte)
    (hlen : bs ≤ tmp.length) :
    ∃ tmp', pwriteLeftEdge bs st off L tmp = .ok tmp' ∧
      tmp'.length = tmp.length := by
  simp only [pwriteLeftEdge]
  split_ifs with h1
  · rw [hh_store_ok bs st hbs hwf bs (L * bs) ⟨L, Nat.mul_comm _ _⟩]
    have hbb : bs / bs * bs = bs := by rw [Nat.div_self hbs, Nat.one_mul]
    rw [hbb]
    dsimp only
    refine ⟨_, rfl, ?_⟩
    exact listStore_length tmp _ 0 (by rw [readBytes_length]; omega)
  · exact ⟨tmp, rfl, rfl⟩

lemma pwriteRightEdge_ok (bs : Nat) (st : Store) (hbs : 0 < bs)
    (hwf : wfStore bs st) (off count L R N : Nat) (tmp : List Byte)
    (hlen : tmp.length = N * bs) (hN : 1 ≤ N) :
    ∃ tmp', pwriteRightEdge bs st off count L R N tmp = .ok tmp' ∧
      tmp'.length = tmp.length := by
  simp only [pwriteRightEdge]
  split_ifs with h1
  · rw [hh_store_ok bs st hbs hwf bs (R * bs) ⟨R, Nat.mul_comm _ _⟩]
    have hbb : bs / bs * bs = bs := by rw [Nat.div_self hbs, Nat.one_mul]
    rw [hbb]
    dsimp only
    refine ⟨_, rfl, ?_⟩
    apply listStore_length
    rw [readBytes_length, hlen]
    have hexp : (N - 1) * bs + bs = (N - 1 + 1) * bs := by ring
    have hN1 : N - 1 + 1 = N := by omega
    rw [hN1] at hexp
    omega
  · exact ⟨tmp, rfl, rfl⟩

lemma dstore_pwrite_ok (bs : Nat) (st : Store) (hbs : 0 < bs)
    (hwf : wfStore bs st) (off count : Nat) (w : List Byte)
    (hw : w.length = count) (h32bs : bs < U32)
    (hfit : off + count ≤ (U32 - 1) * bs) :
    ∃ st', dstore_pwrite bs st off count w = .ok st' ∧ wfStore bs st' ∧
      ∀ i, i < count → byteAt bs st' (off + i) = w.getD i 0 := by
  simp only [dstore_pwrite]
  by_cases hA : count % bs = 0 ∧ off % bs = 0
  · rw [if_pos hA]
    simp only [pwrite_aligned]
    refine ⟨_, rfl, ?_, ?_⟩
    · exact backendWriteAligned_wf bs st hbs hwf off w
        (hw ▸ Nat.dvd_iff_mod_eq_zero.mpr hA.1)
    · intro i hi
      have hoffdvd : bs ∣ off := Nat.dvd_iff_mod_eq_zero.mpr hA.2
      have hoffmul : off / bs * bs = off := Nat.div_mul_cancel hoffdvd
      have hdmi : bs * (i / bs) + i % bs = i := Nat.div_add_mod i bs
      have hcomm : off / bs * bs = bs * (off / bs) := Nat.mul_comm _ _
      have haddr : off + i = bs * (off / bs + i / bs) + i % bs := by
        rw [Nat.mul_add]
        omega
      rw [haddr]
      have hcdvd : bs ∣ count := Nat.dvd_iff_mod_eq_zero.mpr hA.1
      have hcmul : count / bs * bs = count := Nat.div_mul_cancel hcdvd
      have hilt : i / bs < w.length / bs := by
        rw [hw, Nat.div_lt_iff_lt_mul hbs, hcmul]
        exact hi
      have hbw := byteAt_write bs st hbs off (i / bs) (i % bs) w
        (Nat.mod_lt _ hbs) hilt
      rw [hbw]
      congr 1
      have hcomm2 : i / bs * bs = bs * (i / bs) := Nat.mul_comm _ _
      omega
  · rw [if_neg hA]
    simp only [pwrite_unaligned]
    have hU : U32 = 4294967296 := by norm_num [U32]
    have hq32 : off / bs < U32 := by
      have h1 := q_le_of_fit bs off count hbs hfit
      have h2 : off / bs ≤ (off + count) / bs :=
        Nat.div_le_div_right (Nat.le_add_right off count)
      rw [hU] at h1 ⊢
      omega
    rw [left_blk_num_eq bs off hq32, right_blk_num_eq bs off count hbs hA hfit,
      num_of_blks_eq bs off count hbs hA hfit]
    have hdm0 : off / bs * bs + off % bs = off := Nat.div_add_mod' off bs
    have hml0 : off % bs < bs := Nat.mod_lt _ hbs
    have hbpu : u32 (off - off / bs * bs) = off - off / bs * bs := by
      apply u32_eq
      rw [hU] at h32bs ⊢
      omega
    rw [hbpu]
    obtain ⟨hLle, hlb, hkey, hN1⟩ := pwrite_bounds bs off count hbs hA
    have hbsN : bs ≤ numIdeal bs off count * bs := by
      have h1 : 1 * bs ≤ numIdeal bs off count * bs :=
        Nat.mul_le_mul_right bs hN1
      rw [Nat.one_mul] at h1
      exact h1
    have hlen0 : (List.replicate (numIdeal bs off count * bs) (0 : Byte)).length =
        numIdeal bs off count * bs := by simp
    obtain ⟨tmp1, he1, hl1⟩ := pwriteLeftEdge_ok bs st hbs hwf off
      (off / bs)
      (List.replicate (numIdeal bs off count * bs) 0)
      (by rw [hlen0]; exact hbsN)
    rw [he1]
    dsimp only
    obtain ⟨tmp2, he2, hl2⟩ := pwriteRightEdge_ok bs st hbs hwf off count
      (off / bs) (rightBlkIdeal bs off count)
      (numIdeal bs off count) tmp1 (by rw [hl1, hlen0]) hN1
    rw [he2]
    dsimp only
    simp only [pwrite_aligned]
    have hlen2 : tmp2.length = numIdeal bs off count * bs := by
      rw [hl2, hl1, hlen0]
    have hlen3 : (listStore tmp2 (off - off / bs * bs) w).length =
        numIdeal bs off count * bs := by
      rw [listStore_length tmp2 w _ (by rw [hlen2]; omega), hlen2]
    refine ⟨_, rfl, ?_, ?_⟩
    · exact backendWriteAligned_wf bs st hbs hwf _ _
        (hlen3 ▸ ⟨numIdeal bs off count, Nat.mul_comm _ _⟩)
    · intro i hi
      have hdmq : bs * ((off - off / bs * bs + i) / bs) +
          (off - off / bs * bs + i) % bs =
          off - off / bs * bs + i := Nat.div_add_mod _ bs
      have hrlt : (off - off / bs * bs + i) % bs < bs :=
        Nat.mod_lt _ hbs
      have hcommL : off / bs * bs = bs * (off / bs) :=
        Nat.mul_comm _ _
      have haddr : off + i = bs * (off / bs +
          (off - off / bs * bs + i) / bs) +
          (off - off / bs * bs + i) % bs := by
        rw [Nat.mul_add]
        omega
      rw [haddr]
      have hqlt : (off - off / bs * bs + i) / bs <
          (listStore tmp2 (off - off / bs * bs) w).length / bs := by
        rw [hlen3, Nat.mul_div_cancel _ hbs, Nat.div_lt_iff_lt_mul hbs]
        omega
      have hbw := byteAt_write bs st hbs (off / bs * bs)
        ((off - off / bs * bs + i) / bs)
        ((off - off / bs * bs + i) % bs)
        (listStore tmp2 (off - off / bs * bs) w) hrlt hqlt
      rw [Nat.mul_div_cancel _ hbs] at hbw
      rw [hbw]
      have hidx : (off - off / bs * bs + i) / bs * bs +
          (off - off / bs * bs + i) % bs =
          off - off / bs * bs + i := by
        have hcommq : (off - off / bs * bs + i) / bs * bs =
            bs * ((off - off / bs * bs + i) / bs) :=
          Nat.mul_comm _ _
        omega
      rw [hidx]
      exact listStore_getD tmp2 w _ i 0 (by rw [hlen2]; omega) (by omega)

/-- C1 counterexample: the claimed universal read-after-write round trip
fails once the uint32_t block-index locals truncate.  With bs = 4 and
offset = 2^32*4 + 2 on an empty object, pwrite_unaligned computes
left_blk_num = 0 (offset/bs = 2^32 truncated) and commits the 6 payload
bytes at the aliased low offset 0, while the following pread copies only
the 2 bytes covered by the (equally aliased) left-edge block and then
issues its interior aligned read at the true 64-bit offset, which is a
hole and zero-fills; both calls succeed and the read-back differs from
the written buffer. -/
theorem dstore_roundtrip_truncation_cex :
    (dstore_pwrite 4 (fun _ => none) (2 ^ 32 * 4 + 2) 6 [1, 2, 3, 4, 5, 6]).map
      (fun s => dstore_pread 4 s (2 ^ 32 * 4 + 2) 6) =
      .ok (.ok [1, 2, 0, 0, 0, 0]) ∧
    [1, 2, 0, 0, 0, 0] ≠ [1, 2, 3, 4, 5, 6] := by
  refine ⟨rfl, by decide⟩

/-- C1 amended: for every well-formed object state and every buffer w of
length count, dstore_pwrite succeeds and a following dstore_pread of the
same range succeeds and returns exactly w, for aligned and unaligned
offset and count alike, provided the request keeps the uint32_t locals of
the unaligned paths below their wrap point: bs < 2^32, count < 2^32 and
offset + count <= (2^32 - 1) * bs.  Beyond that regime the truncated
block numbers alias the write low while the interior read uses the true
offset, and the round trip fails (see the counterexample). -/
theorem dstore_pwrite_pread_roundtrip (bs : Nat) (st : Store) (off count : Nat)
    (w : List Byte) (hbs : 0 < bs) (hwf : wfStore bs st)
    (hw : w.length = count) (h32bs : bs < U32) (h32c : count < U32)
    (hfit : off + count ≤ (U32 - 1) * bs) :
    ∃ st', dstore_pwrite bs st off count w = .ok st' ∧
      dstore_pread bs st' off count = .ok w := by
  obtain ⟨st', hok, hwf', hin⟩ :=
    dstore_pwrite_ok bs st hbs hwf off count w hw h32bs hfit
  have hq32 : off / bs < U32 := by
    have h1 := q_le_of_fit bs off count hbs hfit
    have h2 : off / bs ≤ (off + count) / bs :=
      Nat.div_le_div_right (Nat.le_add_right off count)
    have hU : U32 = 4294967296 := by norm_num [U32]
    rw [hU] at h1 ⊢
    omega
  refine ⟨st', hok, ?_⟩
  rw [dstore_pread_ok bs st' hbs hwf' off count h32bs h32c hq32]
  congr 1
  rw [readBytes]
  calc (List.range count).map (fun j => byteAt bs st' (off + j))
      = (List.range count).map (fun j => w.getD j 0) :=
        List.map_congr_left (fun j hj => hin j (List.mem_range.mp hj))
    _ = w := by rw [← hw]; exact getD_map_range w 0

theorem dstore_pwrite_pread_roundtrip_witness :
    ∃ st', dstore_pwrite 2 (fun _ => none) 1 3 [7, 8, 9] = .ok st' ∧
      dstore_pread 2 st' 1 3 = .ok [7, 8, 9] :=
  dstore_pwrite_pread_roundtrip 2 (fun _ => none) 1 3 [7, 8, 9] (by decide)
    (fun _ _ h => nomatch h) rfl (by decide) (by decide) (by decide)

/-- Concrete one-block object used to exhibit the pwrite frame violation:
block 0 has been written with bytes 5, 7 (block size 2). -/
def frameDemoStore : Store := fun i => if i = 0 then some [5, 7] else none

/-- C2 (code bug): pwrite is claimed to preserve every byte outside
the written range, but for a block-aligned offset with count < bs the
request stays in one block (L = R) and pwrite_unaligned performs no edge
read at all (the left-edge read is guarded by offset % bs != 0 and the
right-edge read by L != R), so bytes count..bs of that block are
overwritten with the zeros of the scratch buffer.  Here byte 1 holds 7
before writing one byte at offset 0, and reads back as 0 afterwards. -/
theorem pwrite_unaligned_frame_violation :
    byteAt 2 frameDemoStore 1 = 7 ∧
    dstore_pread 2 frameDemoStore 1 1 = .ok [7] ∧
    (dstore_pwrite 2 frameDemoStore 0 1 [9]).map
      (fun s => byteAt 2 s 1) = .ok 0 ∧
    (dstore_pwrite 2 frameDemoStore 0 1 [9]).map
      (fun s => dstore_pread 2 s 1 1) = .ok (.ok [0]) := by
  refine ⟨rfl, rfl, rfl, rfl⟩

